import Mathlib

/-!
Verification of the text-wrapping and font-configuration core of `text2svg`
(`src/utils.rs` and `src/font.rs`).

Strings are modelled as `List Char` (Rust `&str` viewed as its sequence of
Unicode scalar values; the byte indices used by the source are always
char-aligned at the places they are used, so char positions are a faithful
model).  Pixel widths (`f32` in the source) are modelled as exact rationals:
only comparisons and ring operations on widths occur in the code.  The
external shaping engine and font loader are abstracted as function fields, as
in the source they sit behind `font_kit` / `rustybuzz`.
-/

namespace Text2svg

/-- Rust `char::is_ascii_whitespace`: space, tab, line feed, form feed,
carriage return. -/
def isAsciiWhitespace (c : Char) : Bool :=
  c = ' ' || c = '\t' || c = '\n' || c = '\x0C' || c = '\r'

/-- Rust `char::is_whitespace` (the Unicode `White_Space` property), used by
`str::trim_start` / `str::trim_end` / `str::trim`. -/
def isRustWhitespace (c : Char) : Bool :=
  let n := c.toNat
  (9 ≤ n && n ≤ 13) || n = 32 || n = 133 || n = 160 || n = 5760 ||
  (8192 ≤ n && n ≤ 8202) || n = 8232 || n = 8233 || n = 8239 || n = 8287 || n = 12288

/-- Rust `str::trim_start`. -/
def trimStart (l : List Char) : List Char :=
  l.dropWhile isRustWhitespace

/-- Rust `str::trim_end`. -/
def trimEnd (l : List Char) : List Char :=
  (l.reverse.dropWhile isRustWhitespace).reverse

/-- Rust `str::trim`. -/
def trimBoth (l : List Char) : List Char :=
  trimStart (trimEnd l)

/-- Rust `line.trim_end_matches(['\r', '\n'])` applied to a freshly read
physical line (`utils.rs:115` and `utils.rs:183`). -/
def trimLineEnding (l : List Char) : List Char :=
  (l.reverse.dropWhile (fun c => c = '\r' || c = '\n')).reverse

/-- Whether the character at position `p` of `l` is ASCII whitespace
(out-of-range positions count as non-whitespace). -/
def wsAt (l : List Char) (p : Nat) : Bool :=
  isAsciiWhitespace (l.getD p ' ')

/-- Translation of `potential_split_point.char_indices().rev().find(|&(_, c)|
c.is_ascii_whitespace()).map(|(i, _)| i)` (`utils.rs:221-225`): the index of
the last ASCII-whitespace character of `l`. -/
def lastWsIdx (l : List Char) : Option Nat :=
  (l.enum.reverse.find? (fun p => isAsciiWhitespace p.2)).map (fun p => p.1)

/-- Last position `p < k` with `f p = true`; used to characterise both the
reverse whitespace search of `split_line` and the `wrap_split` state of the
pixel splitter. -/
def lastWsBefore (f : Nat → Bool) : Nat → Option Nat
  | 0 => none
  | k + 1 => if f k then some k else lastWsBefore f k

/-- Translation of `split_line` (`utils.rs:205-237`).  If the line fits within
`maxWidth` scalars it is returned right-trimmed with an empty remainder;
otherwise the first `maxWidth` scalars are searched backwards for ASCII
whitespace (split there, trimming both parts), else the line is hard-broken at
the `maxWidth` boundary with the remainder left-trimmed.  The byte index
`split_char_index` of the source corresponds to char position `maxWidth`. -/
def split_line (line : List Char) (maxWidth : Nat) : List Char × List Char :=
  if line.length ≤ maxWidth then (trimEnd line, [])
  else
    let potential := line.take maxWidth
    match lastWsIdx potential with
    | some idx => (trimEnd (potential.take idx), trimStart (line.drop idx))
    | none => (potential, trimStart (line.drop maxWidth))

/-- Translation of `WidthLineIterator::next` (`utils.rs:93-133`), run to
exhaustion.  `fuel` bounds the number of produced lines (the Rust iterator is
pulled until it returns `None`); `buffer` is the leftover-text buffer and
`source` the remaining physical lines of the reader (each line is trimmed of
its `\r`/`\n` ending exactly as the source does after `read_line`). -/
def widthLines : Nat → Nat → List Char → List (List Char) → List (List Char)
  | 0, _, _, _ => []
  | fuel + 1, maxWidth, buffer, source =>
    if buffer.length > maxWidth then
      let parts := split_line buffer maxWidth
      parts.1 :: widthLines fuel maxWidth parts.2 source
    else if buffer ≠ [] then
      buffer :: widthLines fuel maxWidth [] source
    else
      match source with
      | [] => []
      | l :: ls =>
        let trimmed := trimLineEnding l
        if trimmed.length > maxWidth then
          let parts := split_line trimmed maxWidth
          parts.1 :: widthLines fuel maxWidth parts.2 ls
        else
          trimmed :: widthLines fuel maxWidth [] ls

/-- The `FontStyle` enumeration of `font.rs:24-37`: nine weight buckets plus
italic. -/
inductive FontStyle where
  | Thin
  | ExtraLight
  | Light
  | Regular
  | Medium
  | SemiBold
  | Bold
  | ExtraBold
  | Black
  | Italic
deriving DecidableEq

/-- The posture of a face as reported by `font_kit` (`Style` in the source);
`Oblique` stands for every posture other than normal and italic. -/
inductive Posture where
  | Normal
  | Italic
  | Oblique
deriving DecidableEq

/-- UTF-8 encoding of one Unicode scalar value, as a list of byte values;
models Rust `str::as_bytes` / `str::len` at the character level. -/
def utf8Char (c : Char) : List Nat :=
  let n := c.toNat
  if n < 128 then [n]
  else if n < 2048 then [192 + n / 64, 128 + n % 64]
  else if n < 65536 then [224 + n / 4096, 128 + (n / 64) % 64, 128 + n % 64]
  else [240 + n / 262144, 128 + (n / 4096) % 64, 128 + (n / 64) % 64, 128 + n % 64]

/-- UTF-8 encoding of a string; `(utf8Encode s).length` is Rust's
`s.len()` (the byte length). -/
def utf8Encode (l : List Char) : List Nat :=
  (l.map utf8Char).flatten

/-- A `rustybuzz::Feature`: a 4-byte OpenType tag with a value (the range
covers the whole text in every construction the source performs). -/
structure Feature where
  tag : List Nat
  value : Nat
deriving DecidableEq

/-- Construction of a `Feature` from a tag string, as in
`font.rs:284-293`: the first four UTF-8 bytes of the tag, zero-padded. -/
def mkFeature (tag : List Char) (value : Nat) : Feature :=
  let bs := utf8Encode tag
  { tag := bs.take 4 ++ List.replicate (4 - bs.length) 0, value := value }

/-- A loaded face.  `ascent`, `descent`, `unitsPerEm` model
`font_kit::metrics`; `fontData` models the shaping pipeline
(`copy_font_data` / `Face::from_slice` / `rustybuzz::shape`): `none` when the
face data cannot be copied or parsed, otherwise a function from the feature
list and the text to the per-glyph horizontal advances.  The shaping engine is
an external collaborator, so it is abstracted as a function. -/
structure Font where
  ascent : ℚ
  descent : ℚ
  unitsPerEm : ℚ
  fontData : Option (List Feature → List Char → List ℚ)

/-- The `FontConfig` struct of `font.rs:96-106`.  The `HashMap`s are modelled
as an association list (feature map, keys unique by construction) and a
function (face map). -/
structure FontConfig where
  font_name : List Char
  size : Nat
  feature_map : List (List Char × Feature)
  features : List Feature
  faces : FontStyle → Option Font
  letter_space : ℚ
  fill_color : List Char
  color : List Char
  debug : Bool

/-- Translation of `FontConfig::get_font_by_style` (`font.rs:332-334`). -/
def get_font_by_style (cfg : FontConfig) (style : FontStyle) : Option Font :=
  cfg.faces style

/-- Translation of `font_full_name_to_weight` (`font.rs:109-133`): lower-case
the full name and test substring containment in a fixed order.  Rust
`str::to_lowercase` is modelled on ASCII letters (the only characters the
searched patterns contain); other characters are left unchanged. -/
def toLowerAscii (l : List Char) : List Char :=
  l.map (fun c => if 'A' ≤ c && c ≤ 'Z' then Char.ofNat (c.toNat + 32) else c)

/-- Rust `str::starts_with` for char lists. -/
def leadsWith : List Char → List Char → Bool
  | [], _ => true
  | _ :: _, [] => false
  | p :: ps, c :: cs => p = c && leadsWith ps cs

/-- Rust `str::contains` for char lists. -/
def containsPat (pat : List Char) : List Char → Bool
  | [] => leadsWith pat []
  | c :: rest => leadsWith pat (c :: rest) || containsPat pat rest

/-- Translation of `font_full_name_to_weight` (`font.rs:109-133`). -/
def font_full_name_to_weight (name : List Char) : Option FontStyle :=
  let n := toLowerAscii name
  if containsPat ("extralight".toList) n then some FontStyle.ExtraLight
  else if containsPat ("light".toList) n then some FontStyle.Light
  else if containsPat ("medium".toList) n then some FontStyle.Medium
  else if containsPat ("regular".toList) n then some FontStyle.Regular
  else if containsPat ("semibold".toList) n then some FontStyle.SemiBold
  else if containsPat ("bold".toList) n then some FontStyle.Bold
  else none

/-- Translation of `approximate_font_weight` (`font.rs:136-163`).  The
`font_kit` weight landmarks are `THIN = 100`, …, `BLACK = 900`. -/
def approximate_font_weight (w : ℚ) : FontStyle :=
  if 100 ≤ w ∧ w < 200 then FontStyle.Thin
  else if 200 ≤ w ∧ w < 300 then FontStyle.ExtraLight
  else if 300 ≤ w ∧ w < 400 then FontStyle.Light
  else if 400 ≤ w ∧ w < 500 then FontStyle.Regular
  else if 500 ≤ w ∧ w < 600 then FontStyle.Medium
  else if 600 ≤ w ∧ w < 700 then FontStyle.SemiBold
  else if 700 ≤ w ∧ w < 800 then FontStyle.Bold
  else if 800 ≤ w ∧ w < 900 then FontStyle.ExtraBold
  else FontStyle.Black

/-- The metadata of one face handle as seen by the constructor loop
(`font.rs:177-203`): full display name, posture flag, numeric weight. -/
structure FaceInfo where
  fullName : List Char
  posture : Posture
  weight : ℚ

/-- The style key assigned to one face by the constructor loop
(`font.rs:186-202`): name heuristic first, then posture branch; `none` means
the face is dropped with a diagnostic and not stored. -/
def assignFaceStyle (info : FaceInfo) : Option FontStyle :=
  match font_full_name_to_weight info.fullName with
  | some s => some s
  | none =>
    match info.posture with
    | Posture.Normal => some (approximate_font_weight info.weight)
    | Posture.Italic => some FontStyle.Italic
    | Posture.Oblique => none

/-- One iteration of the constructor's face loop: insert the face under its
assigned key (overwriting), or leave the map unchanged when the face is
dropped. -/
def buildFacesStep (m : FontStyle → Option Font) (face : FaceInfo × Font) :
    FontStyle → Option Font :=
  match assignFaceStyle face.1 with
  | some k => fun k' => if k' = k then some face.2 else m k'
  | none => m

/-- The face map built by `FontConfig::new` from the family's face handles
(`font.rs:175-203`), processed in order (last face per key wins). -/
def buildFaces (faces : List (FaceInfo × Font)) : FontStyle → Option Font :=
  faces.foldl buildFacesStep (fun _ => none)

/-- Lookup in the feature map (model of `HashMap::get`). -/
def lookupKey (k : List Char) : List (List Char × Feature) → Option Feature
  | [] => none
  | (k', v) :: rest => if k' = k then some v else lookupKey k rest

/-- Insert into the feature map (model of `HashMap::insert`): replace the
existing binding in place, or append a new one. -/
def insertKey (k : List Char) (v : Feature) :
    List (List Char × Feature) → List (List Char × Feature)
  | [] => [(k, v)]
  | (k', v') :: rest =>
    if k' = k then (k, v) :: rest else (k', v') :: insertKey k v rest

/-- Remove from the feature map (model of `HashMap::remove`). -/
def eraseKey (k : List Char) :
    List (List Char × Feature) → List (List Char × Feature)
  | [] => []
  | (k', v') :: rest =>
    if k' = k then eraseKey k rest else (k', v') :: eraseKey k rest

/-- Rust `u32::from_str`: an optional leading `+`, then one or more ASCII
decimal digits, with the value required to fit in 32 bits. -/
def parseU32 (s : List Char) : Option Nat :=
  let ds := match s with
    | '+' :: rest => rest
    | _ => s
  if ds = [] then none
  else if ds.all (fun c => c.isDigit) then
    let v := ds.foldl (fun a c => a * 10 + (c.toNat - 48)) 0
    if v < 4294967296 then some v else none
  else none

/-- The two error shapes produced by `set_features_from_string`
(`font.rs:262` and `font.rs:271`); each carries the strings interpolated into
the corresponding message. -/
inductive FeatureErr where
  | invalidValue (value : List Char) (tag : List Char)
  | invalidTagLength (tag : List Char)
deriving DecidableEq

/-- Processing of one comma-separated token of the feature spec
(`font.rs:251-299`): trim, skip if empty, split at the first `=` (tag trimmed,
value defaulting to 1), fail if the value does not parse as `u32`, fail if the
tag is not exactly 4 bytes long, then remove the tag (value 0) or insert it
(value > 0). -/
def applyFeatureToken (m : List (List Char × Feature)) (tok : List Char) :
    Except FeatureErr (List (List Char × Feature)) :=
  let t := trimBoth tok
  if t = [] then Except.ok m
  else
    let parsed : Except FeatureErr (List Char × Nat) :=
      match t.findIdx? (fun c => c = '=') with
      | some eqPos =>
        let tag := trimBoth (t.take eqPos)
        let valueStr := trimBoth (t.drop (eqPos + 1))
        match parseU32 valueStr with
        | none => Except.error (FeatureErr.invalidValue valueStr tag)
        | some v => Except.ok (tag, v)
      | none => Except.ok (t, 1)
    match parsed with
    | Except.error e => Except.error e
    | Except.ok (tag, v) =>
      if (utf8Encode tag).length ≠ 4 then
        Except.error (FeatureErr.invalidTagLength tag)
      else if v = 0 then Except.ok (eraseKey tag m)
      else Except.ok (insertKey tag (mkFeature tag v) m)

/-- The token loop of `set_features_from_string`: apply the tokens in order,
stopping at the first error; the returned map reflects exactly the tokens
applied before the error. -/
def applyTokens (m : List (List Char × Feature)) :
    List (List Char) → List (List Char × Feature) × Except FeatureErr Unit
  | [] => (m, Except.ok ())
  | tok :: rest =>
    match applyFeatureToken m tok with
    | Except.ok m' => applyTokens m' rest
    | Except.error e => (m, Except.error e)

/-- Translation of `FontConfig::set_features_from_string` (`font.rs:247-309`)
in state-passing form: the Rust method mutates `self` and returns a
`Result`.  On success the derived `features` vector is recomputed from the
map (`font.rs:302`); on error the early `return` skips that recomputation,
leaving `features` untouched while `feature_map` keeps the tokens already
applied. -/
def set_features_from_string (cfg : FontConfig) (s : List Char) :
    FontConfig × Except FeatureErr Unit :=
  match applyTokens cfg.feature_map (s.splitOn ',') with
  | (m, Except.ok ()) =>
    ({ cfg with feature_map := m, features := m.map (fun p => p.2) }, Except.ok ())
  | (m, Except.error e) =>
    ({ cfg with feature_map := m }, Except.error e)

/-- Translation of `FontConfig::get_features` (`font.rs:324-326`). -/
def get_features (cfg : FontConfig) : List Feature :=
  cfg.features

/-- The per-face scale factor of `calculate_text_width` (`utils.rs:262-265`):
`target_size / (ascent - descent).max(1.0)`. -/
def scaleOf (cfg : FontConfig) (f : Font) : ℚ :=
  (cfg.size : ℚ) / max (f.ascent - f.descent) 1

/-- Translation of `calculate_text_width` (`utils.rs:240-279`).  Empty text
measures 0 with no shaping; the face for `style` is resolved with fallback to
`Regular`; a missing face or unavailable face data yields `none`; otherwise
the glyph advances are summed, scaled, and a letter-spacing term
`scale * letter_space * units_per_em` is added per gap between characters. -/
def calculate_text_width (text : List Char) (cfg : FontConfig) (style : FontStyle) :
    Option ℚ :=
  if text = [] then some 0
  else
    match
      (match get_font_by_style cfg style with
       | some f => some f
       | none => get_font_by_style cfg FontStyle.Regular) with
    | none => none
    | some face =>
      match face.fontData with
      | none => none
      | some shape =>
        let advances := shape (get_features cfg) text
        let scale := scaleOf cfg face
        let total := (advances.map (fun a => a * scale)).sum
        let letterSpace := scale * cfg.letter_space * face.unitsPerEm
        let charCount := text.length
        some (if 1 < charCount then total + letterSpace * ((charCount - 1 : Nat) : ℚ)
              else total)

/-- Whether the prefix of `line` of length `i` measures within `maxW`
(an unavailable measurement counts as not fitting). -/
def fitsAt (line : List Char) (maxW : ℚ) (cfg : FontConfig) (style : FontStyle)
    (i : Nat) : Bool :=
  match calculate_text_width (line.take i) cfg style with
  | some w => decide (w ≤ maxW)
  | none => false

/-- The scan loop of `split_line_by_pixel_width` (`utils.rs:302-316`),
iterating over the prefix lengths `idxs` (called with `1..=chars.len()`) and
threading the `best_split` / `wrap_split` state: a fitting prefix advances
`best_split` and records `i-1` in `wrap_split` when the scalar before the
boundary is ASCII whitespace; a measured prefix that no longer fits stops the
scan; an unmeasurable prefix is skipped. -/
def splitScan (line : List Char) (maxW : ℚ) (cfg : FontConfig) (style : FontStyle) :
    List Nat → Nat → Option Nat → Nat × Option Nat
  | [], best, wrap => (best, wrap)
  | i :: rest, best, wrap =>
    match calculate_text_width (line.take i) cfg style with
    | none => splitScan line maxW cfg style rest best wrap
    | some w =>
      if w ≤ maxW then
        splitScan line maxW cfg style rest i
          (if decide (i < line.length) && wsAt line (i - 1) then some (i - 1) else wrap)
      else (best, wrap)

/-- The backward whitespace search of `split_line_by_pixel_width`
(`utils.rs:329-335`): starting from `best_split`, decrement until an ASCII
whitespace character is found or position 0 is reached. -/
def backwardWsScan (line : List Char) : Nat → Nat
  | 0 => 0
  | k + 1 => if wsAt line k then k else backwardWsScan line k

/-- The split-point selection of `split_line_by_pixel_width`
(`utils.rs:319-341`), before the zero guard: prefer the recorded whitespace
boundary when it is within `best_split / 4` of `best_split`, otherwise use
`best_split`; with no recorded boundary, search backwards from `best_split`
and use the found position only when it is positive. -/
def splitPointRaw (line : List Char) (maxW : ℚ) (cfg : FontConfig)
    (style : FontStyle) : Nat :=
  let scanned := splitScan line maxW cfg style (List.range' 1 line.length) 0 none
  match scanned.2 with
  | some wrapPos =>
    if scanned.1 - wrapPos ≤ scanned.1 / 4 then wrapPos else scanned.1
  | none =>
    let s := backwardWsScan line scanned.1
    if decide (0 < s) && wsAt line s then s else scanned.1

/-- The zero guard of `split_line_by_pixel_width` (`utils.rs:343-346`): a
split point of 0 is forced to `min 1 (chars.len())` so at least one character
is consumed. -/
def guardPoint (sp n : Nat) : Nat :=
  if sp = 0 then min 1 n else sp

/-- Translation of `split_line_by_pixel_width` (`utils.rs:282-352`): a line
measuring within the budget is returned right-trimmed; an unmeasurable line
falls back to the character splitter with a fixed budget of 50; otherwise the
line is split at the selected (and guarded) split point, trimming the head
right and the tail left. -/
def split_line_by_pixel_width (line : List Char) (maxW : ℚ) (cfg : FontConfig)
    (style : FontStyle) : List Char × List Char :=
  match calculate_text_width line cfg style with
  | some w =>
    if w ≤ maxW then (trimEnd line, [])
    else
      let sp := guardPoint (splitPointRaw line maxW cfg style) line.length
      (trimEnd (line.take sp), trimStart (line.drop sp))
  | none => split_line line 50

/-- The accumulation loop of `wrap_text_by_pixel_width` (`utils.rs:365-383`)
with an explicit iteration bound: `none` is returned only when the bound is
exhausted.  A remainder measuring within the budget is pushed as the final
line; otherwise the splitter is applied, an empty head aborts the loop, and a
non-empty head is accumulated. -/
def wrapGo (maxW : ℚ) (cfg : FontConfig) (style : FontStyle) :
    Nat → List Char → Option (List (List Char))
  | 0, _ => none
  | fuel + 1, remaining =>
    if remaining = [] then some []
    else
      let fits : Bool :=
        match calculate_text_width remaining cfg style with
        | some w => decide (w ≤ maxW)
        | none => false
      if fits then some [remaining]
      else
        let parts := split_line_by_pixel_width remaining maxW cfg style
        if parts.1 = [] then some []
        else (wrapGo maxW cfg style fuel parts.2).map (fun ls => parts.1 :: ls)

/-- Translation of `wrap_text_by_pixel_width` (`utils.rs:355-386`): empty
input yields a single empty line; otherwise the accumulation loop is run
(with bound `length + 1`, shown sufficient below). -/
def wrap_text_by_pixel_width (text : List Char) (maxW : ℚ) (cfg : FontConfig)
    (style : FontStyle) : List (List Char) :=
  if text = [] then [[]]
  else (wrapGo maxW cfg style (text.length + 1) text).getD []

/-- Specification-side reading of step 2 of the pixel splitting rule: the
scan visits prefix lengths `1..N` and stops at the first prefix that exceeds
the budget, so `best_split` is the length of the initial run of fitting
prefixes. -/
def bestFitLen (line : List Char) (maxW : ℚ) (cfg : FontConfig)
    (style : FontStyle) : Nat :=
  ((List.range' 1 line.length).takeWhile (fitsAt line maxW cfg style)).length

/-- Specification-side reading of steps 2-3 of the pixel splitting rule: the
whitespace boundary is the last position below `best_split` that is ASCII
whitespace; it is used when within 25% of `best_split` (integer division by
4, as in the source); otherwise the backward search from `best_split` is
used when it finds a positive position, else `best_split` is a hard break. -/
def splitPointSpec (line : List Char) (maxW : ℚ) (cfg : FontConfig)
    (style : FontStyle) : Nat :=
  let best := bestFitLen line maxW cfg style
  match lastWsBefore (wsAt line) best with
  | some wrapPos => if best - wrapPos ≤ best / 4 then wrapPos else best
  | none =>
    match lastWsBefore (wsAt line) best with
    | some p => if 0 < p then p else best
    | none => best

/-- Specification-side reading of one feature-spec token: `none` when the
token is skipped (empty after trimming) or its value fails to parse,
otherwise the mentioned tag with its value (1 when no `=` is present). -/
def tokenTagValue (tok : List Char) : Option (List Char × Nat) :=
  let t := trimBoth tok
  if t = [] then none
  else
    match t.findIdx? (fun c => c = '=') with
    | some eqPos =>
      (parseU32 (trimBoth (t.drop (eqPos + 1)))).map
        (fun v => (trimBoth (t.take eqPos), v))
    | none => some (t, 1)

/-- The value attached to the last token of `toks` that mentions `tag`,
when any does. -/
def lastMentionValue (tag : List Char) (toks : List (List Char)) : Option Nat :=
  toks.reverse.findSome?
    (fun tok =>
      match tokenTagValue tok with
      | some (tg, v) => if tg = tag then some v else none
      | none => none)

/-- The fixed name-pattern priority list of `font_full_name_to_weight`,
in source order. -/
def namePatterns : List (List Char × FontStyle) :=
  [("extralight".toList, FontStyle.ExtraLight),
   ("light".toList, FontStyle.Light),
   ("medium".toList, FontStyle.Medium),
   ("regular".toList, FontStyle.Regular),
   ("semibold".toList, FontStyle.SemiBold),
   ("bold".toList, FontStyle.Bold)]

/-- The default feature map installed by `FontConfig::new`
(`font.rs:204-208`): `kern`, `liga`, `calt`, `clig`, each enabled with
value 1. -/
def defaultFeatureMap : List (List Char × Feature) :=
  [("kern".toList, mkFeature ("kern".toList) 1),
   ("liga".toList, mkFeature ("liga".toList) 1),
   ("calt".toList, mkFeature ("calt".toList) 1),
   ("clig".toList, mkFeature ("clig".toList) 1)]

/-- A concrete configuration with no loaded faces, used to evaluate the
feature-set operations on explicit inputs. -/
def cfgDefault : FontConfig :=
  { font_name := "Test".toList
    size := 16
    feature_map := defaultFeatureMap
    features := defaultFeatureMap.map (fun p => p.2)
    faces := fun _ => none
    letter_space := 0
    fill_color := "#000".toList
    color := "#000".toList
    debug := false }

/-- A concrete shaping function: every glyph advances 10 units. -/
def shapeTen : List Feature → List Char → List ℚ :=
  fun _ text => text.map (fun _ => (10 : ℚ))

/-- A concrete face whose ascent-descent span is 16 units, so at size 16 the
scale factor is 1 and every character is 10 pixels wide. -/
def fontTen : Font :=
  { ascent := 17, descent := 1, unitsPerEm := 1000, fontData := some shapeTen }

/-- A concrete configuration holding `fontTen` as its regular face. -/
def cfgTen : FontConfig :=
  { cfgDefault with
    faces := fun s => if s = FontStyle.Regular then some fontTen else none }

/-! Helper lemmas. -/

lemma trimStart_length_le (l : List Char) : (trimStart l).length ≤ l.length :=
  (List.dropWhile_suffix _).length_le

lemma trimEnd_length_le (l : List Char) : (trimEnd l).length ≤ l.length := by
  have h := (List.dropWhile_suffix (l := l.reverse) isRustWhitespace).length_le
  simpa [trimEnd] using h

lemma ascii_ws_rust_ws {c : Char} (h : isAsciiWhitespace c = true) :
    isRustWhitespace c = true := by
  simp only [isAsciiWhitespace, Bool.or_eq_true, decide_eq_true_eq] at h
  rcases h with ((((h | h) | h) | h) | h) <;> subst h <;> decide

lemma trimStart_cons_ws {c : Char} (l : List Char) (h : isRustWhitespace c = true) :
    trimStart (c :: l) = trimStart l := by
  simp [trimStart, List.dropWhile_cons, h]

lemma sum_map_mul (l : List ℚ) (r : ℚ) : (l.map (fun a => a * r)).sum = l.sum * r := by
  induction l with
  | nil => simp
  | cons a as ih => simp [ih, add_mul]

lemma lastWsBefore_lt {f : Nat → Bool} : ∀ {k p : Nat}, lastWsBefore f k = some p → p < k := by
  intro k
  induction k with
  | zero => intro p h; simp [lastWsBefore] at h
  | succ n ih =>
    intro p h
    by_cases hf : f n
    · simp [lastWsBefore, hf] at h
      omega
    · simp [lastWsBefore, hf] at h
      exact Nat.lt_succ_of_lt (ih h)

lemma lastWsBefore_ws {f : Nat → Bool} : ∀ {k p : Nat}, lastWsBefore f k = some p → f p = true := by
  intro k
  induction k with
  | zero => intro p h; simp [lastWsBefore] at h
  | succ n ih =>
    intro p h
    by_cases hf : f n
    · simp [lastWsBefore, hf] at h
      subst h; exact hf
    · simp [lastWsBefore, hf] at h
      exact ih h

lemma lastWsBefore_eq_none {f : Nat → Bool} :
    ∀ {k : Nat}, lastWsBefore f k = none ↔ ∀ p, p < k → f p = false := by
  intro k
  induction k with
  | zero => simp [lastWsBefore]
  | succ n ih =>
    constructor
    · intro h p hp
      by_cases hf : f n
      · rw [lastWsBefore, if_pos hf] at h
        exact absurd h (by simp)
      · rw [lastWsBefore, if_neg hf] at h
        rcases Nat.lt_succ_iff_lt_or_eq.mp hp with h' | h'
        · exact ih.mp h p h'
        · subst h'; simpa using hf
    · intro h
      have hf : f n = false := h n (Nat.lt_succ_self n)
      rw [lastWsBefore, if_neg (by simp [hf])]
      exact ih.mpr (fun p hp => h p (Nat.lt_succ_of_lt hp))

lemma lastWsBefore_congr {f g : Nat → Bool} :
    ∀ {k : Nat}, (∀ p, p < k → f p = g p) → lastWsBefore f k = lastWsBefore g k := by
  intro k
  induction k with
  | zero => intro _; rfl
  | succ n ih =>
    intro h
    have hn := h n (Nat.lt_succ_self n)
    simp only [lastWsBefore, hn]
    rw [ih (fun p hp => h p (Nat.lt_succ_of_lt hp))]

lemma lastWsIdx_eq (l : List Char) : lastWsIdx l = lastWsBefore (wsAt l) l.length := by
  induction l using List.reverseRecOn with
  | nil => rfl
  | append_singleton xs c ih =>
    have henum : (xs ++ [c]).enum = xs.enum ++ [(xs.length, c)] := by
      rw [List.enum_append]
      rfl
    have hget : wsAt (xs ++ [c]) xs.length = isAsciiWhitespace c := by
      simp [wsAt, List.getD_eq_getElem?_getD,
        List.getElem?_append_right (Nat.le_refl xs.length)]
    have hcong : ∀ p, p < xs.length → wsAt (xs ++ [c]) p = wsAt xs p := by
      intro p hp
      simp [wsAt, List.getD_eq_getElem?_getD, List.getElem?_append_left hp]
    simp only [lastWsIdx, henum, List.reverse_append, List.reverse_cons,
      List.reverse_nil, List.nil_append, List.singleton_append, List.find?_cons,
      List.length_append, List.length_cons, List.length_nil]
    by_cases hc : isAsciiWhitespace c
    · simp only [hc, Option.map_some]
      have : lastWsBefore (wsAt (xs ++ [c])) (xs.length + 1) = some xs.length := by
        simp [lastWsBefore, hget, hc]
      simp [this]
    · simp only [hc, Bool.false_eq_true, if_false]
      have : lastWsBefore (wsAt (xs ++ [c])) (xs.length + 1) =
          lastWsBefore (wsAt xs) xs.length := by
        simp only [lastWsBefore, hget, hc, Bool.false_eq_true, if_false]
        exact lastWsBefore_congr hcong
      rw [← lastWsIdx, ih, this]

lemma applyTokens_error_decomp :
    ∀ (toks : List (List Char)) (m : List (List Char × Feature)) (e : FeatureErr),
      (applyTokens m toks).2 = Except.error e →
      ∃ pre tok rest, toks = pre ++ tok :: rest ∧
        (applyTokens m pre).2 = Except.ok () ∧
        (applyTokens m toks).1 = (applyTokens m pre).1 ∧
        applyFeatureToken (applyTokens m pre).1 tok = Except.error e := by
  intro toks
  induction toks with
  | nil => intro m e h; simp [applyTokens] at h
  | cons tok rest ih =>
    intro m e h
    rcases happ : applyFeatureToken m tok with e' | m'
    · have hcons : applyTokens m (tok :: rest) = (m, Except.error e') := by
        rw [applyTokens, happ]
      rw [hcons] at h
      have he : e' = e := by simpa using h
      refine ⟨[], tok, rest, rfl, rfl, ?_, ?_⟩
      · rw [hcons]; rfl
      · show applyFeatureToken m tok = Except.error e
        rw [happ, he]
    · have hcons : applyTokens m (tok :: rest) = applyTokens m' rest := by
        rw [applyTokens, happ]
      rw [hcons] at h
      rcases ih m' e h with ⟨pre', tok', rest', hsplit, hok, hfst, herr⟩
      have hpre : applyTokens m (tok :: pre') = applyTokens m' pre' := by
        rw [applyTokens, happ]
      refine ⟨tok :: pre', tok', rest', by rw [hsplit, List.cons_append], ?_, ?_, ?_⟩
      · rw [hpre]; exact hok
      · rw [hcons, hpre]; exact hfst
      · rw [hpre]; exact herr

/-! Claim theorems. -/

/-- C10: for every budget, config and style, `wrap_text_by_pixel_width`
applied to the empty string returns the one-element sequence containing the
empty string, not an empty sequence. -/
theorem claim_C10 (maxW : ℚ) (cfg : FontConfig) (style : FontStyle) :
    wrap_text_by_pixel_width [] maxW cfg style = [[]] := rfl

/-- C6: `calculate_text_width` returns `some 0` on empty text; falls back to
the Regular face when the requested style is absent and returns `none` when
Regular is also absent; and otherwise returns the summed shaped advances
times the scale factor `size / max (ascent - descent) 1`, plus a
letter-spacing contribution `letter_space * scale * units_per_em *
(char_count - 1)` added exactly when the scalar count exceeds 1. -/
theorem claim_C6 :
    (∀ (cfg : FontConfig) (style : FontStyle),
      calculate_text_width [] cfg style = some 0) ∧
    (∀ (text : List Char) (cfg : FontConfig) (style : FontStyle),
      text ≠ [] → cfg.faces style = none → cfg.faces FontStyle.Regular = none →
      calculate_text_width text cfg style = none) ∧
    (∀ (text : List Char) (cfg : FontConfig) (style : FontStyle),
      cfg.faces style = none →
      calculate_text_width text cfg style = calculate_text_width text cfg FontStyle.Regular) ∧
    (∀ (text : List Char) (cfg : FontConfig) (style : FontStyle) (f : Font)
      (shape : List Feature → List Char → List ℚ),
      cfg.faces style = some f → f.fontData = some shape → text ≠ [] →
      calculate_text_width text cfg style =
        some ((shape (get_features cfg) text).sum * scaleOf cfg f +
          (if 1 < text.length then
            cfg.letter_space * scaleOf cfg f * f.unitsPerEm * ((text.length - 1 : Nat) : ℚ)
          else 0))) := by
  refine ⟨fun cfg style => rfl, ?_, ?_, ?_⟩
  · intro text cfg style ht h1 h2
    simp [calculate_text_width, get_font_by_style, h1, h2, ht]
  · intro text cfg style h1
    by_cases ht : text = []
    · subst ht; rfl
    · rcases h2 : cfg.faces FontStyle.Regular with _ | f <;>
        simp [calculate_text_width, get_font_by_style, h1, h2, ht]
  · intro text cfg style f shape hf hd ht
    simp only [calculate_text_width, get_font_by_style, hf, hd, if_neg ht]
    rw [sum_map_mul]
    by_cases hn : 1 < text.length
    · rw [if_pos hn, if_pos hn]
      ring_nf
    · rw [if_neg hn, if_neg hn, add_zero]

/-- C9: when `set_features_from_string` fails, the derived feature list
returned by `get_features` is exactly what it was before the call, while the
tag-to-feature map may already reflect tokens applied earlier in the same
call, so the two can disagree (witnessed on a concrete config and spec
string). -/
theorem claim_C9 :
    (∀ (cfg : FontConfig) (s : List Char) (e : FeatureErr),
      (set_features_from_string cfg s).2 = Except.error e →
      get_features (set_features_from_string cfg s).1 = get_features cfg) ∧
    ((set_features_from_string cfgDefault ("liga=0,cv=1".toList)).2 =
      Except.error (FeatureErr.invalidTagLength ("cv".toList)) ∧
    (set_features_from_string cfgDefault ("liga=0,cv=1".toList)).1.features ≠
      (set_features_from_string cfgDefault ("liga=0,cv=1".toList)).1.feature_map.map
        (fun p => p.2)) := by
  refine ⟨?_, ?_, ?_⟩
  · intro cfg s e h
    rcases happ : applyTokens cfg.feature_map (s.splitOn ',') with ⟨m, exc⟩
    simp only [set_features_from_string, happ] at h ⊢
    cases exc with
    | ok u => cases u; simp at h
    | error e' => rfl
  · rfl
  · decide

/-- C5 (counterexample): the claim says a token whose trimmed tag is not
exactly 4 characters fails with a length error, but the source checks the
UTF-8 byte length: the tag `éé` has 2 characters yet 4 bytes, and the call
succeeds. -/
theorem claim_C5_counterexample :
    (trimBoth ("éé".toList)).length ≠ 4 ∧
    (set_features_from_string cfgDefault ("éé".toList)).2 = Except.ok () := by
  exact ⟨by decide, rfl⟩

/-- C5 (amended): tag validity is checked on the UTF-8 byte length, not the
character count.  A token with `=` whose value does not parse as `u32` fails
with a parse error naming the raw value and the tag; a token whose tag is not
exactly 4 bytes fails with a length error naming the tag (value parsing
happens first for tokens with `=`); and on failure the feature map reflects
exactly the tokens before the failing one, which is itself not applied. -/
theorem claim_C5_amended :
    (∀ (m : List (List Char × Feature)) (tok : List Char) (eqPos : Nat),
      trimBoth tok ≠ [] →
      (trimBoth tok).findIdx? (fun c => c = '=') = some eqPos →
      parseU32 (trimBoth ((trimBoth tok).drop (eqPos + 1))) = none →
      applyFeatureToken m tok =
        Except.error (FeatureErr.invalidValue
          (trimBoth ((trimBoth tok).drop (eqPos + 1)))
          (trimBoth ((trimBoth tok).take eqPos)))) ∧
    (∀ (m : List (List Char × Feature)) (tok : List Char) (eqPos v : Nat),
      trimBoth tok ≠ [] →
      (trimBoth tok).findIdx? (fun c => c = '=') = some eqPos →
      parseU32 (trimBoth ((trimBoth tok).drop (eqPos + 1))) = some v →
      (utf8Encode (trimBoth ((trimBoth tok).take eqPos))).length ≠ 4 →
      applyFeatureToken m tok =
        Except.error (FeatureErr.invalidTagLength (trimBoth ((trimBoth tok).take eqPos)))) ∧
    (∀ (m : List (List Char × Feature)) (tok : List Char),
      trimBoth tok ≠ [] →
      (trimBoth tok).findIdx? (fun c => c = '=') = none →
      (utf8Encode (trimBoth tok)).length ≠ 4 →
      applyFeatureToken m tok = Except.error (FeatureErr.invalidTagLength (trimBoth tok))) ∧
    (∀ (cfg : FontConfig) (s : List Char) (e : FeatureErr),
      (set_features_from_string cfg s).2 = Except.error e →
      ∃ pre tok rest, s.splitOn ',' = pre ++ tok :: rest ∧
        (applyTokens cfg.feature_map pre).2 = Except.ok () ∧
        (set_features_from_string cfg s).1.feature_map =
          (applyTokens cfg.feature_map pre).1 ∧
        applyFeatureToken (applyTokens cfg.feature_map pre).1 tok = Except.error e) := by
  refine ⟨?_, ?_, ?_, ?_⟩
  · intro m tok eqPos h1 h2 h3
    simp [applyFeatureToken, h1, h2, h3]
  · intro m tok eqPos v h1 h2 h3 h4
    simp [applyFeatureToken, h1, h2, h3, h4]
  · intro m tok h1 h2 h3
    simp [applyFeatureToken, h1, h2, h3]
  · intro cfg s e h
    rcases happ : applyTokens cfg.feature_map (s.splitOn ',') with ⟨m, exc⟩
    simp only [set_features_from_string, happ] at h ⊢
    cases exc with
    | ok u => cases u; simp at h
    | error e' =>
      have he : e' = e := by simpa using h
      subst he
      rcases applyTokens_error_decomp _ _ _ (show
          (applyTokens cfg.feature_map (s.splitOn ',')).2 = Except.error e' by
        rw [happ]) with ⟨pre, tok, rest, hsplit, hok, hfst, herr⟩
      refine ⟨pre, tok, rest, hsplit, hok, ?_, herr⟩
      rw [happ] at hfst
      exact hfst

lemma lookup_insertKey (k t : List Char) (v : Feature) :
    ∀ m, lookupKey t (insertKey k v m) = if k = t then some v else lookupKey t m := by
  intro m
  induction m with
  | nil => by_cases ht : k = t <;> simp [insertKey, lookupKey, ht]
  | cons p rest ih =>
    rcases p with ⟨k', v'⟩
    by_cases hk : k' = k
    · subst hk
      by_cases ht : k' = t <;> simp [insertKey, lookupKey, ht]
    · by_cases ht : k' = t
      · subst ht
        have hkt : ¬k = k' := fun h => hk h.symm
        simp [insertKey, lookupKey, hk, hkt]
      · simp [insertKey, lookupKey, hk, ht, ih]

lemma lookup_eraseKey (k t : List Char) :
    ∀ m, lookupKey t (eraseKey k m) = if k = t then none else lookupKey t m := by
  intro m
  induction m with
  | nil => by_cases ht : k = t <;> simp [eraseKey, lookupKey, ht]
  | cons p rest ih =>
    rcases p with ⟨k', v'⟩
    by_cases hk : k' = k
    · subst hk
      by_cases ht : k' = t
      · subst ht; simp [eraseKey, lookupKey, ih]
      · simp [eraseKey, lookupKey, ht, ih]
    · by_cases ht : k' = t
      · subst ht
        have hkt : ¬k = k' := fun h => hk h.symm
        simp [eraseKey, lookupKey, hk, hkt]
      · simp [eraseKey, lookupKey, hk, ht, ih]

lemma applyFeatureToken_ok_lookup (m : List (List Char × Feature)) (tok : List Char)
    (m' : List (List Char × Feature)) (h : applyFeatureToken m tok = Except.ok m')
    (t : List Char) :
    lookupKey t m' =
      match tokenTagValue tok with
      | some (tg, v) =>
        if tg = t then (if v = 0 then none else some (mkFeature tg v)) else lookupKey t m
      | none => lookupKey t m := by
  by_cases h0 : trimBoth tok = []
  · have hm : m = m' := by simpa [applyFeatureToken, h0] using h
    subst hm
    simp [tokenTagValue, h0]
  · rcases hf : (trimBoth tok).findIdx? (fun c => c = '=') with _ | eqPos
    · -- no '=': tag is the trimmed token, value 1
      have htv : tokenTagValue tok = some (trimBoth tok, 1) := by
        simp [tokenTagValue, h0, hf]
      by_cases hlen : (utf8Encode (trimBoth tok)).length = 4
      · have hm : m' = insertKey (trimBoth tok) (mkFeature (trimBoth tok) 1) m := by
          have := h
          simp [applyFeatureToken, h0, hf, hlen] at this
          exact this.symm
        subst hm
        rw [htv, lookup_insertKey]
        by_cases ht : trimBoth tok = t <;> simp [ht]
      · exfalso
        simp [applyFeatureToken, h0, hf, hlen] at h
    · rcases hp : parseU32 (trimBoth ((trimBoth tok).drop (eqPos + 1))) with _ | v
      · exfalso
        simp [applyFeatureToken, h0, hf, hp] at h
      · have htv : tokenTagValue tok = some (trimBoth ((trimBoth tok).take eqPos), v) := by
          simp [tokenTagValue, h0, hf, hp]
        by_cases hlen : (utf8Encode (trimBoth ((trimBoth tok).take eqPos))).length = 4
        · by_cases hv : v = 0
          · subst hv
            have hm : m' = eraseKey (trimBoth ((trimBoth tok).take eqPos)) m := by
              have := h
              simp [applyFeatureToken, h0, hf, hp, hlen] at this
              exact this.symm
            subst hm
            rw [htv, lookup_eraseKey]
            by_cases ht : trimBoth ((trimBoth tok).take eqPos) = t <;> simp [ht]
          · have hm : m' = insertKey (trimBoth ((trimBoth tok).take eqPos))
                (mkFeature (trimBoth ((trimBoth tok).take eqPos)) v) m := by
              have := h
              simp [applyFeatureToken, h0, hf, hp, hlen, hv] at this
              exact this.symm
            subst hm
            rw [htv, lookup_insertKey]
            by_cases ht : trimBoth ((trimBoth tok).take eqPos) = t <;> simp [ht, hv]
        · exfalso
          simp [applyFeatureToken, h0, hf, hp, hlen] at h

lemma lastMentionValue_cons (t tok : List Char) (toks : List (List Char)) :
    lastMentionValue t (tok :: toks) =
      (lastMentionValue t toks).or
        (match tokenTagValue tok with
         | some (tg, v) => if tg = t then some v else none
         | none => none) := by
  unfold lastMentionValue
  rw [List.reverse_cons, List.findSome?_append]
  congr 1
  rcases htv : tokenTagValue tok with _ | ⟨tg, v⟩
  · simp [List.findSome?_cons, htv]
  · by_cases htg : tg = t <;> simp [List.findSome?_cons, htv, htg]

lemma applyTokens_ok_lookup :
    ∀ (toks : List (List Char)) (m : List (List Char × Feature)),
      (applyTokens m toks).2 = Except.ok () →
      ∀ t, lookupKey t (applyTokens m toks).1 =
        match lastMentionValue t toks with
        | some v => if v = 0 then none else some (mkFeature t v)
        | none => lookupKey t m := by
  intro toks
  induction toks with
  | nil =>
    intro m h t
    simp [applyTokens, lastMentionValue, List.findSome?]
  | cons tok rest ih =>
    intro m h t
    rcases happ : applyFeatureToken m tok with e | m'
    · have hcons : applyTokens m (tok :: rest) = (m, Except.error e) := by
        rw [applyTokens, happ]
      rw [hcons] at h
      simp at h
    · have hcons : applyTokens m (tok :: rest) = applyTokens m' rest := by
        rw [applyTokens, happ]
      rw [hcons] at h ⊢
      rw [lastMentionValue_cons, ih m' h t]
      rcases hrest : lastMentionValue t rest with _ | v
      · rw [applyFeatureToken_ok_lookup m tok m' happ t]
        rcases htv : tokenTagValue tok with _ | ⟨tg, w⟩
        · simp [Option.or]
        · by_cases htg : tg = t
          · subst htg; simp [Option.or]
          · simp [Option.or, htg]
      · simp [Option.or]

/-- C4: for every feature spec string accepted without error,
`set_features_from_string` behaves as a sparse override of the feature map:
the final binding of every tag is decided by the last token mentioning it
(tokens are the comma-separated pieces, empties skipped, tag trimmed, missing
value defaulting to 1): value 0 removes the tag, a positive value inserts or
overwrites it, and a tag mentioned by no token keeps its prior binding. -/
theorem claim_C4 (cfg : FontConfig) (s : List Char)
    (h : (set_features_from_string cfg s).2 = Except.ok ()) (t : List Char) :
    lookupKey t (set_features_from_string cfg s).1.feature_map =
      match lastMentionValue t (s.splitOn ',') with
      | some v => if v = 0 then none else some (mkFeature t v)
      | none => lookupKey t cfg.feature_map := by
  rcases happ : applyTokens cfg.feature_map (s.splitOn ',') with ⟨m, exc⟩
  simp only [set_features_from_string, happ] at h ⊢
  cases exc with
  | error e => simp at h
  | ok u =>
    cases u
    have hmain := applyTokens_ok_lookup (s.splitOn ',') cfg.feature_map
      (by rw [happ]) t
    rw [happ] at hmain
    exact hmain

lemma wsAt_take {line : List Char} {maxWidth p : Nat} (hp : p < maxWidth) :
    wsAt (line.take maxWidth) p = wsAt line p := by
  simp [wsAt, List.getD_eq_getElem?_getD, List.getElem?_take, hp]

lemma lastWsIdx_take (line : List Char) (maxWidth : Nat) (h : maxWidth ≤ line.length) :
    lastWsIdx (line.take maxWidth) = lastWsBefore (wsAt line) maxWidth := by
  rw [lastWsIdx_eq]
  have hlen : (line.take maxWidth).length = maxWidth := by
    rw [List.length_take]; omega
  rw [hlen]
  exact lastWsBefore_congr (fun p hp => wsAt_take hp)

lemma split_line_gt_eq (line : List Char) (maxWidth : Nat) (h : maxWidth < line.length) :
    split_line line maxWidth =
      match lastWsBefore (wsAt line) maxWidth with
      | some idx => (trimEnd (line.take idx), trimStart (line.drop idx))
      | none => (line.take maxWidth, trimStart (line.drop maxWidth)) := by
  have hle : ¬line.length ≤ maxWidth := by omega
  unfold split_line
  rw [if_neg hle]
  simp only
  rw [lastWsIdx_take line maxWidth (Nat.le_of_lt h)]
  rcases hws : lastWsBefore (wsAt line) maxWidth with _ | idx
  · rfl
  · have hidx : idx < maxWidth := lastWsBefore_lt hws
    simp only [List.take_take, Nat.min_eq_left (Nat.le_of_lt hidx)]

/-- C2: `split_line` returns the right-trimmed line with an empty remainder
when the scalar count fits the budget; otherwise it splits at the last ASCII
whitespace position in the first `maxWidth` scalars (head right-trimmed, tail
left-trimmed from the whitespace), or hard-breaks at the budget boundary with
the tail left-trimmed when the prefix has no whitespace; the three concrete
scenarios of the specification hold. -/
theorem claim_C2 :
    (∀ (line : List Char) (maxWidth : Nat), line.length ≤ maxWidth →
      split_line line maxWidth = (trimEnd line, [])) ∧
    (∀ (line : List Char) (maxWidth : Nat), maxWidth < line.length →
      split_line line maxWidth =
        match lastWsBefore (wsAt line) maxWidth with
        | some idx => (trimEnd (line.take idx), trimStart (line.drop idx))
        | none => (line.take maxWidth, trimStart (line.drop maxWidth))) ∧
    split_line ("abcdefghijkl".toList) 5 = ("abcde".toList, "fghijkl".toList) ∧
    split_line ("abcde fghijkl".toList) 8 = ("abcde".toList, "fghijkl".toList) ∧
    split_line ("abcde ".toList) 5 = ("abcde".toList, []) := by
  refine ⟨?_, split_line_gt_eq, by decide, by decide, by decide⟩
  intro line maxWidth h
  unfold split_line
  rw [if_pos h]

lemma split_line_head_le (line : List Char) (maxW : Nat) (h : maxW < line.length) :
    (split_line line maxW).1.length ≤ maxW := by
  have hle : ¬line.length ≤ maxW := by omega
  unfold split_line
  rw [if_neg hle]
  simp only
  rw [lastWsIdx_take line maxW (Nat.le_of_lt h)]
  rcases hws : lastWsBefore (wsAt line) maxW with _ | idx
  · simp only
    rw [List.length_take]
    omega
  · have hidx : idx < maxW := lastWsBefore_lt hws
    simp only
    calc (trimEnd ((line.take maxW).take idx)).length
        ≤ ((line.take maxW).take idx).length := trimEnd_length_le _
      _ ≤ maxW := by rw [List.length_take, List.length_take]; omega

/-- C3: every line produced by the character-count wrapper has scalar count
at most the budget; and a line whose first `maxW` scalars contain no ASCII
whitespace is hard-broken to exactly `maxW` scalars. -/
theorem claim_C3 :
    (∀ (fuel maxW : Nat) (buf : List Char) (src : List (List Char)) (l : List Char),
      l ∈ widthLines fuel maxW buf src → l.length ≤ maxW) ∧
    (∀ (line : List Char) (maxW : Nat), maxW < line.length →
      (∀ p, p < maxW → wsAt line p = false) →
      (split_line line maxW).1 = line.take maxW ∧
      (split_line line maxW).1.length = maxW) := by
  constructor
  · intro fuel
    induction fuel with
    | zero => intro maxW buf src l h; simp [widthLines] at h
    | succ n ih =>
      intro maxW buf src l h
      simp only [widthLines] at h
      by_cases h1 : buf.length > maxW
      · rw [if_pos h1] at h
        rcases List.mem_cons.mp h with h' | h'
        · subst h'; exact split_line_head_le buf maxW h1
        · exact ih maxW _ src l h'
      · rw [if_neg h1] at h
        by_cases h2 : buf ≠ []
        · rw [if_pos h2] at h
          rcases List.mem_cons.mp h with h' | h'
          · subst h'; omega
          · exact ih maxW [] src l h'
        · rw [if_neg h2] at h
          rcases src with _ | ⟨x, xs⟩
          · simp at h
          · simp only at h
            by_cases h3 : (trimLineEnding x).length > maxW
            · rw [if_pos h3] at h
              rcases List.mem_cons.mp h with h' | h'
              · subst h'; exact split_line_head_le _ maxW h3
              · exact ih maxW _ xs l h'
            · rw [if_neg h3] at h
              rcases List.mem_cons.mp h with h' | h'
              · subst h'; omega
              · exact ih maxW [] xs l h'
  · intro line maxW h hws
    have hnone : lastWsBefore (wsAt line) maxW = none :=
      lastWsBefore_eq_none.mpr hws
    have hsplit := split_line_gt_eq line maxW h
    rw [hnone] at hsplit
    rw [hsplit]
    refine ⟨rfl, ?_⟩
    rw [List.length_take]
    omega

/-- C7: the style key of a face is determined as specified: the lower-cased
full name is tested against the fixed pattern list (extralight, light,
medium, regular, semibold, bold) with the first match winning; with no name
match, an italic posture yields Italic, a normal posture maps the numeric
weight through half-open intervals over the nine standard landmarks (weight
at or above the black landmark mapping to Black), and any other posture
leaves the face dropped and not stored. -/
theorem claim_C7 :
    (∀ name : List Char,
      font_full_name_to_weight name =
        (namePatterns.find? (fun pr => containsPat pr.1 (toLowerAscii name))).map
          (fun pr => pr.2)) ∧
    (∀ info : FaceInfo, font_full_name_to_weight info.fullName = none →
      (info.posture = Posture.Italic → assignFaceStyle info = some FontStyle.Italic) ∧
      (info.posture = Posture.Normal →
        assignFaceStyle info = some (approximate_font_weight info.weight)) ∧
      (info.posture = Posture.Oblique → assignFaceStyle info = none ∧
        ∀ (m : FontStyle → Option Font) (f : Font), buildFacesStep m (info, f) = m)) ∧
    (∀ w : ℚ,
      (100 ≤ w ∧ w < 200 → approximate_font_weight w = FontStyle.Thin) ∧
      (200 ≤ w ∧ w < 300 → approximate_font_weight w = FontStyle.ExtraLight) ∧
      (300 ≤ w ∧ w < 400 → approximate_font_weight w = FontStyle.Light) ∧
      (400 ≤ w ∧ w < 500 → approximate_font_weight w = FontStyle.Regular) ∧
      (500 ≤ w ∧ w < 600 → approximate_font_weight w = FontStyle.Medium) ∧
      (600 ≤ w ∧ w < 700 → approximate_font_weight w = FontStyle.SemiBold) ∧
      (700 ≤ w ∧ w < 800 → approximate_font_weight w = FontStyle.Bold) ∧
      (800 ≤ w ∧ w < 900 → approximate_font_weight w = FontStyle.ExtraBold) ∧
      (900 ≤ w → approximate_font_weight w = FontStyle.Black)) := by
  refine ⟨?_, ?_, ?_⟩
  · intro name
    unfold font_full_name_to_weight namePatterns
    by_cases h1 : containsPat ("extralight".toList) (toLowerAscii name) <;>
      by_cases h2 : containsPat ("light".toList) (toLowerAscii name) <;>
      by_cases h3 : containsPat ("medium".toList) (toLowerAscii name) <;>
      by_cases h4 : containsPat ("regular".toList) (toLowerAscii name) <;>
      by_cases h5 : containsPat ("semibold".toList) (toLowerAscii name) <;>
      by_cases h6 : containsPat ("bold".toList) (toLowerAscii name) <;>
      simp_all [List.find?]
  · intro info hname
    refine ⟨?_, ?_, ?_⟩
    · intro hp; simp [assignFaceStyle, hname, hp]
    · intro hp; simp [assignFaceStyle, hname, hp]
    · intro hp
      have ha : assignFaceStyle info = none := by simp [assignFaceStyle, hname, hp]
      exact ⟨ha, fun m f => by simp [buildFacesStep, ha]⟩
  · intro w
    refine ⟨?_, ?_, ?_, ?_, ?_, ?_, ?_, ?_, ?_⟩ <;>
      intro h <;>
      unfold approximate_font_weight <;>
      split_ifs with h1 h2 h3 h4 h5 h6 h7 h8 <;>
      first
        | rfl
        | (exfalso
           try obtain ⟨ha, hb⟩ := h
           try obtain ⟨h1a, h1b⟩ := h1
           try obtain ⟨h2a, h2b⟩ := h2
           try obtain ⟨h3a, h3b⟩ := h3
           try obtain ⟨h4a, h4b⟩ := h4
           try obtain ⟨h5a, h5b⟩ := h5
           try obtain ⟨h6a, h6b⟩ := h6
           try obtain ⟨h7a, h7b⟩ := h7
           try obtain ⟨h8a, h8b⟩ := h8
           linarith)

lemma trimStart_drop_lt {l : List Char} {idx : Nat} (hidx : idx < l.length)
    (hws : wsAt l idx = true) :
    (trimStart (l.drop idx)).length < l.length := by
  have hdrop : l.drop idx = l[idx] :: l.drop (idx + 1) :=
    List.drop_eq_getElem_cons hidx
  have hgd : l.getD idx ' ' = l[idx] := List.getD_eq_getElem l ' ' hidx
  have hc : isRustWhitespace (l[idx]) = true := by
    apply ascii_ws_rust_ws
    unfold wsAt at hws
    rw [hgd] at hws
    exact hws
  calc (trimStart (l.drop idx)).length
      = (trimStart (l.drop (idx + 1))).length := by
        rw [hdrop, trimStart_cons_ws _ hc]
    _ ≤ (l.drop (idx + 1)).length := trimStart_length_le _
    _ < l.length := by rw [List.length_drop]; omega

lemma split_line_snd_lt (line : List Char) (maxW : Nat) (hne : line ≠ [])
    (hW : 1 ≤ maxW) : (split_line line maxW).2.length < line.length := by
  have hlen : 0 < line.length := List.length_pos.mpr hne
  by_cases h : line.length ≤ maxW
  · unfold split_line
    rw [if_pos h]
    exact hlen
  · push_neg at h
    rw [split_line_gt_eq line maxW h]
    rcases hws : lastWsBefore (wsAt line) maxW with _ | idx
    · simp only
      calc (trimStart (line.drop maxW)).length
          ≤ (line.drop maxW).length := trimStart_length_le _
        _ < line.length := by rw [List.length_drop]; omega
    · have hidx : idx < maxW := lastWsBefore_lt hws
      simp only
      exact trimStart_drop_lt (by omega) (lastWsBefore_ws hws)

lemma split_pixel_snd_lt (line : List Char) (maxW : ℚ) (cfg : FontConfig)
    (style : FontStyle) (hne : line ≠ []) :
    (split_line_by_pixel_width line maxW cfg style).2.length < line.length := by
  have hlen : 0 < line.length := List.length_pos.mpr hne
  rcases hw : calculate_text_width line cfg style with _ | w
  · have heq : split_line_by_pixel_width line maxW cfg style = split_line line 50 := by
      simp [split_line_by_pixel_width, hw]
    rw [heq]
    exact split_line_snd_lt line 50 hne (by omega)
  · by_cases hfit : w ≤ maxW
    · have heq : split_line_by_pixel_width line maxW cfg style = (trimEnd line, []) := by
        simp [split_line_by_pixel_width, hw, hfit]
      rw [heq]
      exact hlen
    · have heq : split_line_by_pixel_width line maxW cfg style =
          (trimEnd (line.take (guardPoint (splitPointRaw line maxW cfg style) line.length)),
           trimStart (line.drop (guardPoint (splitPointRaw line maxW cfg style)
             line.length))) := by
        simp [split_line_by_pixel_width, hw, hfit]
      rw [heq]
      have hsp : 1 ≤ guardPoint (splitPointRaw line maxW cfg style) line.length := by
        unfold guardPoint
        rcases hr : splitPointRaw line maxW cfg style with _ | r
        · simp
          omega
        · simp
      calc (trimStart (line.drop (guardPoint (splitPointRaw line maxW cfg style)
            line.length))).length
          ≤ (line.drop (guardPoint (splitPointRaw line maxW cfg style)
            line.length)).length := trimStart_length_le _
        _ < line.length := by rw [List.length_drop]; omega

lemma wrapGo_isSome (maxW : ℚ) (cfg : FontConfig) (style : FontStyle) :
    ∀ (fuel : Nat) (t : List Char), t.length < fuel →
      (wrapGo maxW cfg style fuel t).isSome = true := by
  intro fuel
  induction fuel with
  | zero => intro t h; omega
  | succ n ih =>
    intro t h
    rw [wrapGo]
    by_cases ht : t = []
    · rw [if_pos ht]; rfl
    · rw [if_neg ht]
      simp only
      by_cases hfits : (match calculate_text_width t cfg style with
          | some w => decide (w ≤ maxW)
          | none => false) = true
      · rw [if_pos hfits]; rfl
      · rw [if_neg hfits]
        by_cases hempty : (split_line_by_pixel_width t maxW cfg style).1 = []
        · rw [if_pos hempty]; rfl
        · rw [if_neg hempty]
          have hlt := split_pixel_snd_lt t maxW cfg style ht
          have := ih (split_line_by_pixel_width t maxW cfg style).2 (by omega)
          simpa using this

/-- C8: `wrap_text_by_pixel_width` terminates: every splitting step on a
non-empty remainder strictly shrinks it (the zero split point is forced up to
1 so at least one character is consumed), and the accumulation loop therefore
completes within `length + 1` iterations, always producing a finite list of
lines. -/
theorem claim_C8 :
    (∀ (line : List Char) (maxW : ℚ) (cfg : FontConfig) (style : FontStyle),
      line ≠ [] →
      (split_line_by_pixel_width line maxW cfg style).2.length < line.length) ∧
    (∀ (text : List Char) (maxW : ℚ) (cfg : FontConfig) (style : FontStyle),
      (wrapGo maxW cfg style (text.length + 1) text).isSome = true) := by
  constructor
  · intro line maxW cfg style hne
    exact split_pixel_snd_lt line maxW cfg style hne
  · intro text maxW cfg style
    exact wrapGo_isSome maxW cfg style (text.length + 1) text (by omega)

lemma lastWsBefore_succ (f : Nat → Bool) (k : Nat) :
    lastWsBefore f (k + 1) = if f k then some k else lastWsBefore f k := rfl

lemma backwardWsScan_eq (l : List Char) :
    ∀ k, backwardWsScan l k = (lastWsBefore (wsAt l) k).getD 0 := by
  intro k
  induction k with
  | zero => rfl
  | succ n ih =>
    rw [backwardWsScan, lastWsBefore_succ]
    by_cases h : wsAt l n
    · simp [h]
    · simp [h, ih]

lemma tw_le (p : Nat → Bool) : ∀ (k s : Nat), ((List.range' s k).takeWhile p).length ≤ k := by
  intro k
  induction k with
  | zero => intro s; simp
  | succ n ih =>
    intro s
    rw [List.range'_succ, List.takeWhile_cons]
    by_cases h : p s
    · rw [if_pos h]
      simpa using ih (s + 1)
    · rw [if_neg h]
      simp

lemma tw_all (p : Nat → Bool) :
    ∀ (k s j : Nat), s ≤ j → j < s + ((List.range' s k).takeWhile p).length →
      p j = true := by
  intro k
  induction k with
  | zero =>
    intro s j h1 h2
    simp at h2
    omega
  | succ n ih =>
    intro s j h1 h2
    rw [List.range'_succ, List.takeWhile_cons] at h2
    by_cases h : p s
    · rw [if_pos h] at h2
      simp only [List.length_cons] at h2
      rcases Nat.eq_or_lt_of_le h1 with he | hl
      · exact he ▸ h
      · exact ih (s + 1) j hl (by omega)
    · rw [if_neg h] at h2
      simp at h2
      omega

lemma tw_stop (p : Nat → Bool) :
    ∀ (k s : Nat), ((List.range' s k).takeWhile p).length < k →
      p (s + ((List.range' s k).takeWhile p).length) = false := by
  intro k
  induction k with
  | zero => intro s h; omega
  | succ n ih =>
    intro s h
    rw [List.range'_succ, List.takeWhile_cons] at h ⊢
    by_cases hp : p s
    · rw [if_pos hp] at h ⊢
      simp only [List.length_cons] at h ⊢
      have hstep := ih (s + 1) (by omega)
      have hrw : s + (((List.range' (s + 1) n).takeWhile p).length + 1) =
          (s + 1) + ((List.range' (s + 1) n).takeWhile p).length := by omega
      rw [hrw]
      exact hstep
    · rw [if_neg hp] at h ⊢
      simpa using hp

lemma calc_isSome_of (cfg : FontConfig) (style : FontStyle) {t u : List Char}
    (ht : t ≠ []) (hu : u ≠ [])
    (h : (calculate_text_width t cfg style).isSome = true) :
    (calculate_text_width u cfg style).isSome = true := by
  unfold calculate_text_width at h ⊢
  rw [if_neg ht] at h
  rw [if_neg hu]
  rcases hr : (match get_font_by_style cfg style with
      | some f => some f
      | none => get_font_by_style cfg FontStyle.Regular) with _ | f
  · simp [hr] at h
  · rcases hd : f.fontData with _ | shape
    · simp [hr, hd] at h
    · simp [hr, hd]

lemma take_ne_nil {l : List Char} {j : Nat} (hl : l ≠ []) (hj : 1 ≤ j) :
    l.take j ≠ [] := by
  have hlen : 0 < l.length := List.length_pos.mpr hl
  intro hcon
  have hcon' := congrArg List.length hcon
  rw [List.length_take] at hcon'
  simp only [List.length_nil] at hcon'
  omega

lemma bestFitLen_le (line : List Char) (maxW : ℚ) (cfg : FontConfig) (style : FontStyle) :
    bestFitLen line maxW cfg style ≤ line.length :=
  tw_le _ line.length 1

lemma bestFitLen_all (line : List Char) (maxW : ℚ) (cfg : FontConfig) (style : FontStyle)
    (j : Nat) (h1 : 1 ≤ j) (h2 : j ≤ bestFitLen line maxW cfg style) :
    fitsAt line maxW cfg style j = true := by
  refine tw_all _ line.length 1 j h1 ?_
  unfold bestFitLen at h2
  omega

lemma bestFitLen_stop (line : List Char) (maxW : ℚ) (cfg : FontConfig) (style : FontStyle)
    (h : bestFitLen line maxW cfg style < line.length) :
    fitsAt line maxW cfg style (bestFitLen line maxW cfg style + 1) = false := by
  have hstop := tw_stop (fitsAt line maxW cfg style) line.length 1
    (by unfold bestFitLen at h; exact h)
  rw [Nat.add_comm] at hstop
  exact hstop

lemma splitScan_run (line : List Char) (maxW : ℚ) (cfg : FontConfig) (style : FontStyle)
    (hS : ∀ j, 1 ≤ j → j ≤ line.length →
      (calculate_text_width (line.take j) cfg style).isSome = true)
    (hBlt : bestFitLen line maxW cfg style < line.length) :
    ∀ d i, 1 ≤ i → i + d = bestFitLen line maxW cfg style + 1 →
      splitScan line maxW cfg style (List.range' i (line.length + 1 - i)) (i - 1)
        (lastWsBefore (wsAt line) (i - 1)) =
      (bestFitLen line maxW cfg style,
        lastWsBefore (wsAt line) (bestFitLen line maxW cfg style)) := by
  intro d
  induction d with
  | zero =>
    intro i h1 h2
    have hi : i = bestFitLen line maxW cfg style + 1 := by omega
    subst hi
    have hlen : line.length + 1 - (bestFitLen line maxW cfg style + 1) =
        (line.length - bestFitLen line maxW cfg style - 1) + 1 := by omega
    rw [hlen, List.range'_succ]
    have hsome := hS (bestFitLen line maxW cfg style + 1) (by omega) (by omega)
    rcases hc : calculate_text_width
        (line.take (bestFitLen line maxW cfg style + 1)) cfg style with _ | wB
    · rw [hc] at hsome
      simp at hsome
    · have hfalse : fitsAt line maxW cfg style
          (bestFitLen line maxW cfg style + 1) = false :=
        bestFitLen_stop line maxW cfg style hBlt
      have hnle : ¬(wB ≤ maxW) := by
        intro hle
        unfold fitsAt at hfalse
        rw [hc] at hfalse
        simp at hfalse
        exact absurd hle (not_le.mpr hfalse)
      simp only [splitScan, hc]
      rw [if_neg hnle]
      simp
  | succ d ih =>
    intro i h1 h2
    have hiB : i ≤ bestFitLen line maxW cfg style := by omega
    have hin : i < line.length := by omega
    have hfits : fitsAt line maxW cfg style i = true :=
      bestFitLen_all line maxW cfg style i h1 hiB
    rcases hc : calculate_text_width (line.take i) cfg style with _ | wi
    · unfold fitsAt at hfits
      rw [hc] at hfits
      simp at hfits
    · have hwle : wi ≤ maxW := by
        unfold fitsAt at hfits
        rw [hc] at hfits
        simpa using hfits
      have hlen : line.length + 1 - i = (line.length - i) + 1 := by omega
      rw [hlen, List.range'_succ]
      simp only [splitScan, hc]
      rw [if_pos hwle]
      have hwrap : (if decide (i < line.length) && wsAt line (i - 1) then some (i - 1)
          else lastWsBefore (wsAt line) (i - 1)) = lastWsBefore (wsAt line) i := by
        rcases i with _ | k
        · omega
        · simp only [Nat.succ_sub_one, lastWsBefore_succ]
          by_cases hwk : wsAt line k
          · simp [hin, hwk]
          · simp [hin, hwk]
      rw [hwrap]
      have hrec := ih (i + 1) (by omega) (by omega)
      have hr1 : line.length + 1 - (i + 1) = line.length - i := by omega
      rw [hr1] at hrec
      simpa using hrec

/-- C1: for every line whose measured pixel width exceeds the budget, the
pixel splitter picks its split point exactly as specified: the scan over
prefix lengths `1..N` stops at the first prefix exceeding the budget, making
`best_split` the length of the initial fitting run and `wrap_split` the last
position below `best_split` followed by ASCII whitespace; a found whitespace
boundary is used exactly when its distance from `best_split` is at most 25%
of `best_split` (integer division), otherwise the backward scan from
`best_split` is consulted (a hit at position 0 is not used), else
`best_split` is a hard break; the split parts are the trimmed take/drop at
the (zero-guarded) selected point. -/
theorem claim_C1 (line : List Char) (maxW : ℚ) (cfg : FontConfig) (style : FontStyle)
    (w : ℚ) (hw : calculate_text_width line cfg style = some w) (hgt : maxW < w) :
    splitPointRaw line maxW cfg style = splitPointSpec line maxW cfg style ∧
    split_line_by_pixel_width line maxW cfg style =
      (trimEnd (line.take (guardPoint (splitPointSpec line maxW cfg style) line.length)),
       trimStart (line.drop (guardPoint (splitPointSpec line maxW cfg style)
         line.length))) := by
  by_cases hne : line = []
  · subst hne
    have hw0 : w = 0 := by
      have h0 : calculate_text_width ([] : List Char) cfg style = some 0 := rfl
      rw [h0] at hw
      exact (Option.some.inj hw).symm
    subst hw0
    have hnle : ¬((0 : ℚ) ≤ maxW) := not_le.mpr hgt
    refine ⟨rfl, ?_⟩
    simp [split_line_by_pixel_width, calculate_text_width, hnle, trimEnd, trimStart]
  · have hlen1 : 0 < line.length := List.length_pos.mpr hne
    have hS : ∀ j, 1 ≤ j → j ≤ line.length →
        (calculate_text_width (line.take j) cfg style).isSome = true := by
      intro j hj1 _
      exact calc_isSome_of cfg style hne (take_ne_nil hne hj1) (by rw [hw]; rfl)
    have hfitn : fitsAt line maxW cfg style line.length = false := by
      unfold fitsAt
      rw [List.take_length, hw]
      have : ¬(w ≤ maxW) := not_le.mpr hgt
      simp [this]
    have hBlt : bestFitLen line maxW cfg style < line.length := by
      rcases Nat.lt_or_ge (bestFitLen line maxW cfg style) line.length with h | h
      · exact h
      · exfalso
        have hBle := bestFitLen_le line maxW cfg style
        have hfit := bestFitLen_all line maxW cfg style line.length (by omega) (by omega)
        rw [hfitn] at hfit
        exact Bool.false_ne_true hfit
    have hscan : splitScan line maxW cfg style (List.range' 1 line.length) 0 none =
        (bestFitLen line maxW cfg style,
          lastWsBefore (wsAt line) (bestFitLen line maxW cfg style)) := by
      have h0 := splitScan_run line maxW cfg style hS hBlt
        (bestFitLen line maxW cfg style) 1 (by omega) (by omega)
      have hr1 : line.length + 1 - 1 = line.length := by omega
      rw [hr1] at h0
      simpa [lastWsBefore] using h0
    have hraw : splitPointRaw line maxW cfg style = splitPointSpec line maxW cfg style := by
      unfold splitPointRaw splitPointSpec
      rw [hscan]
      rcases hlast : lastWsBefore (wsAt line) (bestFitLen line maxW cfg style) with _ | wp
      · simp [hlast, backwardWsScan_eq]
      · simp [hlast]
    refine ⟨hraw, ?_⟩
    have hnle : ¬(w ≤ maxW) := not_le.mpr hgt
    simp only [split_line_by_pixel_width, hw]
    rw [if_neg hnle, hraw]

/-- Witness for C1 on a concrete face (10 pixels per character, scale 1):
`"abc defg"` measures 80 > 45, and the splitter behaves as characterised. -/
theorem claim_C1_witness :
    calculate_text_width ("abc defg".toList) cfgTen FontStyle.Regular = some 80 ∧
    (45 : ℚ) < 80 ∧
    (splitPointRaw ("abc defg".toList) 45 cfgTen FontStyle.Regular =
      splitPointSpec ("abc defg".toList) 45 cfgTen FontStyle.Regular ∧
    split_line_by_pixel_width ("abc defg".toList) 45 cfgTen FontStyle.Regular =
      (trimEnd (("abc defg".toList).take
        (guardPoint (splitPointSpec ("abc defg".toList) 45 cfgTen FontStyle.Regular)
          ("abc defg".toList).length)),
       trimStart (("abc defg".toList).drop
        (guardPoint (splitPointSpec ("abc defg".toList) 45 cfgTen FontStyle.Regular)
          ("abc defg".toList).length)))) := by
  have hcalc : calculate_text_width ("abc defg".toList) cfgTen FontStyle.Regular =
      some 80 := by
    simp [calculate_text_width, get_font_by_style, cfgTen, fontTen, shapeTen, scaleOf,
      cfgDefault, get_features, defaultFeatureMap]
    norm_num
  exact ⟨hcalc, by norm_num,
    claim_C1 ("abc defg".toList) 45 cfgTen FontStyle.Regular 80 hcalc (by norm_num)⟩

/-- Witness for C2: a line within budget is returned trimmed with an empty
remainder. -/
theorem claim_C2_witness :
    ("abc".toList).length ≤ 5 ∧
    split_line ("abc".toList) 5 = (trimEnd ("abc".toList), []) :=
  ⟨by decide, claim_C2.1 ("abc".toList) 5 (by decide)⟩

/-- Witness for C3: the first line produced when wrapping `123123123` at
budget 3 has scalar count at most 3. -/
theorem claim_C3_witness :
    "123".toList ∈ widthLines 4 3 [] ["123123123".toList] ∧
    ("123".toList).length ≤ 3 :=
  ⟨by decide, claim_C3.1 4 3 [] ["123123123".toList] ("123".toList) (by decide)⟩

/-- Witness for C4: after `cv01=1,calt=0` on the default config, the binding
of `calt` follows its last mention (value 0, hence removed). -/
theorem claim_C4_witness :
    (set_features_from_string cfgDefault ("cv01=1,calt=0".toList)).2 = Except.ok () ∧
    lookupKey ("calt".toList)
        (set_features_from_string cfgDefault ("cv01=1,calt=0".toList)).1.feature_map =
      (match lastMentionValue ("calt".toList) (("cv01=1,calt=0".toList).splitOn ',') with
       | some v => if v = 0 then none else some (mkFeature ("calt".toList) v)
       | none => lookupKey ("calt".toList) cfgDefault.feature_map) :=
  ⟨by rfl, claim_C4 cfgDefault ("cv01=1,calt=0".toList) (by rfl) ("calt".toList)⟩

/-- Witness for the amended C5: the 2-byte tag `cv` (no `=`) fails with a
length error naming it. -/
theorem claim_C5_amended_witness :
    trimBoth ("cv".toList) ≠ [] ∧
    (trimBoth ("cv".toList)).findIdx? (fun c => c = '=') = none ∧
    (utf8Encode (trimBoth ("cv".toList))).length ≠ 4 ∧
    applyFeatureToken defaultFeatureMap ("cv".toList) =
      Except.error (FeatureErr.invalidTagLength (trimBoth ("cv".toList))) :=
  ⟨by decide, by decide, by decide,
    claim_C5_amended.2.2.1 defaultFeatureMap ("cv".toList)
      (by decide) (by decide) (by decide)⟩

/-- Witness for C6 on the concrete face: the width of `"ab"` is given by the
advance-sum formula. -/
theorem claim_C6_witness :
    cfgTen.faces FontStyle.Regular = some fontTen ∧
    fontTen.fontData = some shapeTen ∧
    "ab".toList ≠ [] ∧
    calculate_text_width ("ab".toList) cfgTen FontStyle.Regular =
      some ((shapeTen (get_features cfgTen) ("ab".toList)).sum * scaleOf cfgTen fontTen +
        (if 1 < ("ab".toList).length then
          cfgTen.letter_space * scaleOf cfgTen fontTen * fontTen.unitsPerEm *
            ((("ab".toList).length - 1 : Nat) : ℚ)
        else 0)) :=
  ⟨rfl, rfl, by decide,
    claim_C6.2.2.2 ("ab".toList) cfgTen FontStyle.Regular fontTen shapeTen rfl rfl
      (by decide)⟩

/-- Witness for C7: weight 650 falls in the semibold bucket. -/
theorem claim_C7_witness :
    ((600 : ℚ) ≤ 650 ∧ (650 : ℚ) < 700) ∧
    approximate_font_weight 650 = FontStyle.SemiBold :=
  ⟨by norm_num, (claim_C7.2.2 650).2.2.2.2.2.1 (by norm_num)⟩

/-- Witness for C8: splitting the non-empty remainder `"x"` strictly shrinks
it. -/
theorem claim_C8_witness :
    "x".toList ≠ [] ∧
    (split_line_by_pixel_width ("x".toList) 10 cfgDefault FontStyle.Regular).2.length <
      ("x".toList).length :=
  ⟨by decide, claim_C8.1 ("x".toList) 10 cfgDefault FontStyle.Regular (by decide)⟩

/-- Witness for C9: the failing spec `liga=0,cv=1` leaves the derived feature
list untouched. -/
theorem claim_C9_witness :
    (set_features_from_string cfgDefault ("liga=0,cv=1".toList)).2 =
      Except.error (FeatureErr.invalidTagLength ("cv".toList)) ∧
    get_features (set_features_from_string cfgDefault ("liga=0,cv=1".toList)).1 =
      get_features cfgDefault :=
  ⟨by rfl,
    claim_C9.1 cfgDefault ("liga=0,cv=1".toList)
      (FeatureErr.invalidTagLength ("cv".toList)) (by rfl)⟩

end Text2svg
